import Mathlib

/-!
Verification of the Beneath-a-Steel-Sky resource extractor.

This file gives a shallow embedding, in Lean, of the two Rust source files of
the repository: `src/rnc_decompress.rs` (the RNC1 decompressor: bit queue,
canonical-Huffman table builder, symbol decoder and block/subchunk decode
loop) and `src/main.rs` (the archive directory reader and the per-resource
header interpretation with its raw-byte fallback).  Byte streams are modelled
as `List Nat` (each element a byte value), machine integers as `Nat` with
explicit `% 2 ^ 32` / `% 2 ^ 16` where the Rust code relies on fixed width,
and fallible operations return `Option` or a small result inductive.  A Rust
`panic` (out-of-bounds index, `usize` underflow) is modelled as a distinct
outcome, separate from the `DecompressError` results the code can return.

Definitions are transcribed from the source; the declarations whose doc
comments begin with `Modelled from the spec:` stand for the repository's
`bytes_ext` module, which is not present under `src/`, and the definitions
prefixed `spec_` transcribe the specification's own wording of canonical
Huffman assignment for comparison against the code's `val`/`div` arithmetic.
-/

/-- State of `BitQueue` (rnc_decompress.rs lines 215-218): a `u32` accumulator
of buffered bits and a `u16` count of how many of them are valid. -/
structure BitQueue where
  bit_queue : Nat
  bits_in_queue : Nat
deriving DecidableEq, Repr

/-- `BitQueue::new` (lines 221-226). -/
def BitQueue.new : BitQueue := ⟨0, 0⟩

/-- `BitQueue::refill` (lines 229-241): pull two bytes (each defaulting to 0 at
end of stream) as a little-endian 16-bit word, OR it above the buffered bits
(u32 arithmetic), and add 16 to the buffered count unconditionally. -/
def BitQueue.refill (bq : BitQueue) (s : List Nat) : BitQueue × List Nat :=
  let b0 := s.headD 0
  let b1 := (s.drop 1).headD 0
  let new_bits := (b1 <<< 8) ||| b0
  (⟨(bq.bit_queue ||| ((new_bits <<< bq.bits_in_queue) % 2 ^ 32)) % 2 ^ 32,
    bq.bits_in_queue + 16⟩, s.drop 2)

/-- `BitQueue::peek` (lines 244-252): read the next two not-yet-consumed bytes
(without consuming), place them above the buffered bits and truncate to `u16`. -/
def BitQueue.peek (bq : BitQueue) (s : List Nat) : Nat :=
  let p0 := s.headD 0
  let p1 := (s.drop 1).headD 0
  let p := (p1 <<< 8) ||| p0
  (((p <<< bq.bits_in_queue) % 2 ^ 32) ||| bq.bit_queue) % 2 ^ 16

/-- `BitQueue::read_bits` (lines 254-269): refill when fewer than `n` bits are
buffered, then extract the low `n` bits (`(bit_queue as u16) & mask`) and shift
them out.  Returns the value, the new queue state and the remaining stream. -/
def BitQueue.read_bits (bq : BitQueue) (s : List Nat) (n : Nat) :
    Nat × BitQueue × List Nat :=
  let r := if bq.bits_in_queue < n then bq.refill s else (bq, s)
  let bq' := r.1
  let mask := (2 ^ n - 1) % 2 ^ 16
  let v := (bq'.bit_queue % 2 ^ 16) &&& mask
  (v, ⟨bq'.bit_queue >>> n, bq'.bits_in_queue - n⟩, r.2)

/-- `Node` (rnc_decompress.rs lines 70-74): one Huffman table slot, holding the
stored (bit-reversed) code `l3` and the code length `bit_depth` (0 = unused). -/
structure Node where
  l3 : Nat
  bit_depth : Nat
deriving DecidableEq, Repr

instance : Inhabited Node := ⟨⟨0, 0⟩⟩

/-- A Huffman table (`type Table = [Node; 16]`), as the list of its 16 slots. -/
abbrev Table := List Node

/-- `table_new` (lines 78-80): sixteen default (all-zero) slots. -/
def table_new : Table := List.replicate 16 ⟨0, 0⟩

/-- `inverse_bits` (lines 88-96): reverse the low `count` bits of `v`
(the accumulator is a `u32`, hence the `% 2 ^ 32`). -/
def inverse_bits : Nat → Nat → Nat :=
  fun v count => go count v 0
where
  go : Nat → Nat → Nat → Nat
    | 0, _, r => r
    | c + 1, v, r => go c (v >>> 1) (((r <<< 1) ||| (v &&& 1)) % 2 ^ 32)

/-- The depth-reading loop of `Decoder::read_table` (lines 118-120): one 4-bit
read per leaf node, in slot order; each read node keeps its old `l3`. -/
def read_depths (bq : BitQueue) (s : List Nat) :
    List Node → List Node × BitQueue × List Nat
  | [] => ([], bq, s)
  | n :: ns =>
    let r := bq.read_bits s 4
    let rest := read_depths r.2.1 r.2.2 ns
    ({ n with bit_depth := r.1 } :: rest.1, rest.2)

/-- One pass of the code-assignment loop of `Decoder::read_table` (lines
125-130) at code length `bc` with divisor `dv`: each node of depth `bc`
receives `l3 = inverse_bits (val / dv) bc` and `val` advances by `dv`
(`u32` wrapping add). -/
def assign_pass (bc dv : Nat) : List Node → Nat → List Node × Nat
  | [], val => ([], val)
  | n :: ns, val =>
    if n.bit_depth = bc then
      let n' := { n with l3 := inverse_bits (val / dv) bc }
      let rest := assign_pass bc dv ns ((val + dv) % 2 ^ 32)
      (n' :: rest.1, rest.2)
    else
      let rest := assign_pass bc dv ns val
      (n :: rest.1, rest.2)

/-- The outer code-assignment loop of `Decoder::read_table` (lines 122-132):
`k` remaining passes starting at length `bc` with divisor `dv` and counter
`val`; the divisor halves between passes (`div >>= 1`). -/
def assign_loop : Nat → Nat → Nat → Nat → List Node → List Node
  | 0, _, _, _, ns => ns
  | k + 1, bc, dv, val, ns =>
    let p := assign_pass bc dv ns val
    assign_loop k (bc + 1) (dv >>> 1) p.2 p.1

/-- The full code assignment of `Decoder::read_table` (lines 122-132):
lengths 1 through 16, `div` starting at `0x8000_0000`, `val` starting at 0. -/
def assign_codes (ns : List Node) : List Node :=
  assign_loop 16 1 (2 ^ 31) 0 ns

/-- `Decoder::read_table` (lines 111-135): read a 5-bit leaf count (clamped to
16); on count 0 return at once, leaving the table argument untouched;
otherwise read the leaf depths and assign codes over the first `leaf_nodes`
slots only, the remaining slots passing through unchanged. -/
def read_table (bq : BitQueue) (s : List Nat) (table : Table) :
    Table × BitQueue × List Nat :=
  let r5 := bq.read_bits s 5
  let leaf_nodes := min r5.1 16
  if leaf_nodes = 0 then (table, r5.2.1, r5.2.2)
  else
    let rd := read_depths r5.2.1 r5.2.2 (List.take leaf_nodes table)
    (assign_codes rd.1 ++ List.drop leaf_nodes table, rd.2)

/-- The scan of `Decoder::input_value` (lines 188-212) from slot index `i` on:
skip zero-depth slots; on the first slot whose stored code equals the peeked
bits masked to its depth, consume the code bits, then (for `i ≥ 2`) read
`i - 1` extra bits and OR in the implied leading bit.  The Rust loop
`for i in 0u16..` indexes `table[i]`, a 16-element array, so running past the
final slot is an out-of-bounds panic: the `[]` case returns `none`. -/
def input_value_go (bq : BitQueue) (s : List Nat) :
    List Node → Nat → Option (Nat × BitQueue × List Nat)
  | [], _ => none
  | node :: rest, i =>
    if node.bit_depth = 0 then input_value_go bq s rest (i + 1)
    else
      let peek := bq.peek s
      let mask := 2 ^ node.bit_depth - 1
      if node.l3 = (peek &&& mask) then
        let r1 := bq.read_bits s node.bit_depth
        if i < 2 then some (i, r1.2.1, r1.2.2)
        else
          let r2 := r1.2.1.read_bits r1.2.2 (i - 1)
          some (r2.1 ||| 2 ^ (i - 1), r2.2.1, r2.2.2)
      else input_value_go bq s rest (i + 1)

/-- `Decoder::input_value` (lines 188-212); `none` is the out-of-bounds panic
reached when no slot matches. -/
def input_value (table : Table) (bq : BitQueue) (s : List Nat) :
    Option (Nat × BitQueue × List Nat) :=
  input_value_go bq s table 0

/-- Result of a step of the decoder: a value, an I/O (truncation) error with
the remaining stream, or a Rust panic with the remaining stream. -/
inductive Step (α : Type) where
  | ok (a : α)
  | ioErr (rest : List Nat)
  | crash (rest : List Nat)
deriving DecidableEq, Repr

/-- Decoder state while decoding: bit queue, remaining input stream, output. -/
def DecSt := BitQueue × List Nat × List Nat
deriving DecidableEq

/-- The literal-run loop of `Decoder::decode` (lines 162-170): copy
`input_length` bytes straight from the byte source (not through the bit
queue) onto the output; `read_exact` of one byte fails at end of stream. -/
def doLiterals : Nat → List Nat → List Nat → Option (List Nat × List Nat)
  | 0, s, out => some (s, out)
  | _ + 1, [], _ => none
  | k + 1, b :: s, out => doLiterals k s (out ++ [b])

/-- The back-reference copy loop of `Decoder::decode` (lines 176-180), with
`len` the output length captured before the loop and `j` the current
iteration: each step reads `output[len - match_offset + j]` from the current
(growing) output and pushes it.  `usize` underflow of `len - match_offset`
and an out-of-range index are panics (`none`). -/
def expandGo (len offset : Nat) : Nat → Nat → List Nat → Option (List Nat)
  | _, 0, out => some out
  | j, k + 1, out =>
    if len < offset then none
    else
      match out.get? (len - offset + j) with
      | some b => expandGo len offset (j + 1) k (out ++ [b])
      | none => none

/-- The whole back-reference expansion (lines 176-180): `match_count` bytes
copied one at a time starting from `output[len - match_offset]`. -/
def expand_match (out : List Nat) (offset count : Nat) : Option (List Nat) :=
  expandGo out.length offset 0 count out

/-- One subchunk of `Decoder::decode` (lines 159-182): decode a literal run
length via the raw table and copy that many raw bytes; then, unless this is
the block's last subchunk, decode `match_offset` (length table value + 1) and
`match_count` (position table value + 2), in that order, and expand the
back-reference. -/
def decode_one_subchunk (raw_table len_table pos_table : Table) (last : Bool)
    (st : DecSt) : Step DecSt :=
  match input_value raw_table st.1 st.2.1 with
  | none => .crash st.2.1
  | some (v, bq, s) =>
    match doLiterals v s st.2.2 with
    | none => .ioErr []
    | some (s, out) =>
      if last then .ok (bq, s, out)
      else
        match input_value len_table bq s with
        | none => .crash s
        | some (v1, bq, s) =>
          match input_value pos_table bq s with
          | none => .crash s
          | some (v2, bq, s) =>
            match expand_match out (v1 + 1) (v2 + 2) with
            | none => .crash s
            | some out => .ok (bq, s, out)

/-- The subchunk loop of `Decoder::decode` (lines 159-182), by the number of
subchunks still to run; the current subchunk is the block's last one exactly
when one subchunk remains (`subchunk < subchunks - 1` in the source). -/
def subchunk_loop (raw_table len_table pos_table : Table) :
    Nat → DecSt → Step DecSt
  | 0, st => .ok st
  | r + 1, st =>
    match decode_one_subchunk raw_table len_table pos_table (r = 0) st with
    | .ok st' => subchunk_loop raw_table len_table pos_table r st'
    | e => e

/-- The per-block loop of `Decoder::decode` (lines 152-183): rebuild the three
tables in place, read a 16-bit subchunk count, run the subchunks. -/
def block_loop : Nat → Table → Table → Table → DecSt → Step DecSt
  | 0, _, _, _, st => .ok st
  | b + 1, raw_table, len_table, pos_table, (bq, s, out) =>
    let r1 := read_table bq s raw_table
    let r2 := read_table r1.2.1 r1.2.2 len_table
    let r3 := read_table r2.2.1 r2.2.2 pos_table
    let rc := r3.2.1.read_bits r3.2.2 16
    match subchunk_loop r1.1 r2.1 r3.1 rc.1 (rc.2.1, rc.2.2, out) with
    | .ok st' => block_loop b r1.1 r2.1 r3.1 st'
    | e => e

/-- The RNC1 stream header (rnc_decompress.rs lines 38-47). -/
structure RncHeader where
  signature : List Nat
  unpacked_len : Nat
  packed_len : Nat
  crc_unpacked : Nat
  crc_packed : Nat
  overlaps_size : Nat
  blocks : Nat
deriving DecidableEq, Repr

/-- Modelled from the spec: `read_be_u16` of the byte-reader adapter
(`bytes_ext`, not present under `src/`) — a big-endian 16-bit read. -/
def read_be_u16 : List Nat → Option (Nat × List Nat)
  | b0 :: b1 :: s => some ((b0 <<< 8) ||| b1, s)
  | _ => none

/-- Modelled from the spec: `read_be_u32` of the byte-reader adapter
(`bytes_ext`, not present under `src/`) — a big-endian 32-bit read. -/
def read_be_u32 : List Nat → Option (Nat × List Nat)
  | b0 :: b1 :: b2 :: b3 :: s =>
    some ((b0 <<< 24) ||| (b1 <<< 16) ||| (b2 <<< 8) ||| b3, s)
  | _ => none

/-- Modelled from the spec: `read_u8` of the byte-reader adapter
(`bytes_ext`, not present under `src/`) — a single byte read. -/
def read_u8 : List Nat → Option (Nat × List Nat)
  | b :: s => some (b, s)
  | _ => none

/-- `Header::read` (rnc_decompress.rs lines 50-63): a 4-byte signature
followed by big-endian lengths and CRCs and two single bytes. -/
def rncHeaderRead (s : List Nat) : Option (RncHeader × List Nat) :=
  match s with
  | s0 :: s1 :: s2 :: s3 :: s =>
    match read_be_u32 s with
    | none => none
    | some (ul, s) =>
      match read_be_u32 s with
      | none => none
      | some (pl, s) =>
        match read_be_u16 s with
        | none => none
        | some (cu, s) =>
          match read_be_u16 s with
          | none => none
          | some (cp, s) =>
            match read_u8 s with
            | none => none
            | some (ov, s) =>
              match read_u8 s with
              | none => none
              | some (bl, s) =>
                some (⟨[s0, s1, s2, s3], ul, pl, cu, cp, ov, bl⟩, s)
  | _ => none

/-- Outcome of `Decoder::decode` / `decompress_rnc1`, with the remaining
stream: success with the output bytes, an I/O error, the signature error, or
a Rust panic. -/
inductive DecodeOutcome where
  | ok (out : List Nat)
  | ioErr
  | sigErr
  | crash
deriving DecidableEq, Repr

/-- `Decoder::decode` (lines 137-186) followed by `decompress_rnc1` (lines
8-15): read and check the header, discard 2 bits, run the block loop over
tables created once (all-zero) before the loop; returns the outcome together
with the stream position reached. -/
def rnc_decode (s : List Nat) : DecodeOutcome × List Nat :=
  match rncHeaderRead s with
  | none => (.ioErr, s)
  | some (h, s) =>
    if h.signature = [82, 78, 67, 1] then
      let r2 := BitQueue.new.read_bits s 2
      match block_loop h.blocks table_new table_new table_new
          (r2.2.1, r2.2.2, []) with
      | .ok (_, s', out) => (.ok out, s')
      | .ioErr rest => (.ioErr, rest)
      | .crash rest => (.crash, rest)
    else (.sigErr, s)

/-- `decompress_rnc1` (lines 8-15): run the decoder, returning its output. -/
def decompress_rnc1 (s : List Nat) : DecodeOutcome × List Nat :=
  rnc_decode s

/-- `Entry` (main.rs lines 30-37): one directory record. -/
structure Entry where
  number : Nat
  offset : Nat
  size : Nat
  has_file_header : Bool
  uses_file_header : Bool
deriving DecidableEq, Repr

/-- Modelled from the spec: `read_le_u16` of the byte-reader adapter
(`bytes_ext`, not present under `src/`) — a little-endian 16-bit read. -/
def read_le_u16 : List Nat → Option (Nat × List Nat)
  | b0 :: b1 :: s => some ((b1 <<< 8) ||| b0, s)
  | _ => none

/-- Modelled from the spec: `read_le_u24` of the byte-reader adapter
(`bytes_ext`, not present under `src/`) — a little-endian 24-bit read. -/
def read_le_u24 : List Nat → Option (Nat × List Nat)
  | b0 :: b1 :: b2 :: s => some ((b2 <<< 16) ||| (b1 <<< 8) ||| b0, s)
  | _ => none

/-- Modelled from the spec: `read_le_u32` of the byte-reader adapter
(`bytes_ext`, not present under `src/`) — a little-endian 32-bit read. -/
def read_le_u32 : List Nat → Option (Nat × List Nat)
  | b0 :: b1 :: b2 :: b3 :: s =>
    some ((b3 <<< 24) ||| (b2 <<< 16) ||| (b1 <<< 8) ||| b0, s)
  | _ => none

/-- Modelled from the spec: `read_le_i16` of the byte-reader adapter
(`bytes_ext`, not present under `src/`) — a little-endian signed 16-bit read
(two's complement). -/
def read_le_i16 (s : List Nat) : Option (Int × List Nat) :=
  match read_le_u16 s with
  | none => none
  | some (v, s) =>
    some (if v < 2 ^ 15 then (v : Int) else (v : Int) - 2 ^ 16, s)

/-- The entry loop of `read_dinner_table` (main.rs lines 88-104): per entry a
16-bit id, a 24-bit offset, and a 24-bit size/flags field whose top two bits
become the two header flags (`size >> 23 == 0`, `size >> 22 == 0`) and whose
low 22 bits are the size. -/
def read_entries : Nat → List Nat → Option (List Entry × List Nat)
  | 0, s => some ([], s)
  | k + 1, s =>
    match read_le_u16 s with
    | none => none
    | some (number, s) =>
      match read_le_u24 s with
      | none => none
      | some (offset, s) =>
        match read_le_u24 s with
        | none => none
        | some (size, s) =>
          match read_entries k s with
          | none => none
          | some (rest, s') =>
            some ({ number := number, offset := offset,
                    size := size &&& 0x3fffff,
                    has_file_header := size >>> 23 = 0,
                    uses_file_header := size >>> 22 = 0 } :: rest, s')

/-- `read_dinner_table` (main.rs lines 84-107): a 32-bit little-endian entry
count, then that many entries. -/
def read_dinner_table (s : List Nat) : Option (List Entry × List Nat) :=
  match read_le_u32 s with
  | none => none
  | some (entry_count, s) => read_entries entry_count s

/-- `Header` (main.rs lines 39-52): the optional 22-byte resource header. -/
structure RHeader where
  flags : Nat
  x : Nat
  y : Nat
  width : Nat
  height : Nat
  sp_size : Nat
  tot_size : Nat
  n_sprites : Nat
  offset_x : Int
  offset_y : Int
  compressed_size : Nat
deriving DecidableEq, Repr

/-- `Header::is_compressed` (main.rs lines 54-58): bit 7 of `flags`. -/
def RHeader.is_compressed (h : RHeader) : Bool := h.flags &&& 0x80 ≠ 0

/-- The header-parsing block of `read_resource` (main.rs lines 130-143):
eleven consecutive little-endian 16-bit fields. -/
def readRHeader (s : List Nat) : Option (RHeader × List Nat) :=
  match read_le_u16 s with
  | none => none
  | some (flags, s) =>
    match read_le_u16 s with
    | none => none
    | some (x, s) =>
      match read_le_u16 s with
      | none => none
      | some (y, s) =>
        match read_le_u16 s with
        | none => none
        | some (width, s) =>
          match read_le_u16 s with
          | none => none
          | some (height, s) =>
            match read_le_u16 s with
            | none => none
            | some (sp_size, s) =>
              match read_le_u16 s with
              | none => none
              | some (tot_size, s) =>
                match read_le_u16 s with
                | none => none
                | some (n_sprites, s) =>
                  match read_le_i16 s with
                  | none => none
                  | some (offset_x, s) =>
                    match read_le_i16 s with
                    | none => none
                    | some (offset_y, s) =>
                      match read_le_u16 s with
                      | none => none
                      | some (compressed_size, s) =>
                        some (⟨flags, x, y, width, height, sp_size, tot_size,
                               n_sprites, offset_x, offset_y,
                               compressed_size⟩, s)

/-- `Resource` (main.rs lines 60-64). -/
structure Resource where
  entry : Entry
  header : Option RHeader
  data : List Nat
deriving DecidableEq, Repr

/-- Outcome of `read_resource`: a resource, a propagated I/O error, or a Rust
panic propagated out of `decompress_rnc1`. -/
inductive ResourceResult where
  | ok (r : Resource)
  | ioErr
  | crash
deriving DecidableEq, Repr

/-- `read_resource` (main.rs lines 121-163): without a file header the bytes
are the resource verbatim; otherwise parse the 22-byte header from the shared
cursor and, when the compressed flag is set, attempt RNC1 decompression of
the remainder; on any decompression error the fallback reads the rest of the
cursor — from wherever the failed decode left it. -/
def read_resource (entry : Entry) (data : List Nat) : ResourceResult :=
  if entry.has_file_header = false then
    .ok ⟨entry, none, data⟩
  else
    match readRHeader data with
    | none => .ioErr
    | some (h, rest) =>
      if h.is_compressed then
        match decompress_rnc1 rest with
        | (.ok out, _) => .ok ⟨entry, some h, out⟩
        | (.ioErr, rem) => .ok ⟨entry, some h, rem⟩
        | (.sigErr, rem) => .ok ⟨entry, some h, rem⟩
        | (.crash, _) => .crash
      else .ok ⟨entry, some h, rest⟩

/-- Canonical-Huffman assignment pass at code length `bc`, following the
specification's words rather than the code: each symbol whose length equals
the current value takes the next available code (the counter increases by one
per assignment) and stores its bit-reversal at width `bc`. -/
def spec_assign_pass (bc : Nat) : List Node → Nat → List Node × Nat
  | [], code => ([], code)
  | n :: ns, code =>
    if n.bit_depth = bc then
      let rest := spec_assign_pass bc ns (code + 1)
      ({ n with l3 := inverse_bits code bc } :: rest.1, rest.2)
    else
      let rest := spec_assign_pass bc ns code
      (n :: rest.1, rest.2)

/-- Canonical-Huffman outer loop following the specification's words: `k`
remaining lengths starting at `bc`; the counter doubles between lengths. -/
def spec_assign_loop : Nat → Nat → Nat → List Node → List Node
  | 0, _, _, ns => ns
  | k + 1, bc, code, ns =>
    let p := spec_assign_pass bc ns code
    spec_assign_loop k (bc + 1) (p.2 * 2) p.1

/-- Canonical-Huffman assignment following the specification's words:
lengths 1 through 16, codes allocated in increasing order from 0. -/
def spec_canonical_assign (ns : List Node) : List Node :=
  spec_assign_loop 16 1 0 ns

/-- The part of the Kraft weight `2 ^ (32 - d)` contributed by depths at
least `bc` (and at most 16 — greater depths are never assigned a code). -/
def kraftFrom (bc : Nat) : List Nat → Nat
  | [] => 0
  | d :: ds =>
    (if bc ≤ d ∧ d ≤ 16 then 2 ^ (32 - d) else 0) + kraftFrom bc ds

/-- Code `c1` of bit length `l1` is a (proper or improper) prefix of code
`c2` of bit length `l2`, reading codes most-significant-bit first as
canonical Huffman codes are conventionally written. -/
def codePrefixOf (c1 l1 c2 l2 : Nat) : Prop :=
  l1 ≤ l2 ∧ c2 >>> (l2 - l1) = c1

instance (c1 l1 c2 l2 : Nat) : Decidable (codePrefixOf c1 l1 c2 l2) :=
  inferInstanceAs (Decidable (_ ∧ _))

/-! ### General helper lemmas -/

/-- The low-bits extraction of `read_bits`: masking the `u16` truncation of
`q` with `(1 << n) - 1` for `n ≤ 16` is exactly `q % 2 ^ n`. -/
theorem low_bits_eq_mod (q n : Nat) (hn : n ≤ 16) :
    (q % 2 ^ 16) &&& ((2 ^ n - 1) % 2 ^ 16) = q % 2 ^ n := by
  have h1 : (2 ^ n - 1) % 2 ^ 16 = 2 ^ n - 1 := by
    apply Nat.mod_eq_of_lt
    have : 2 ^ n ≤ 2 ^ 16 := Nat.pow_le_pow_right (by omega) hn
    omega
  rw [h1, Nat.and_pow_two_sub_one_eq_mod,
    Nat.mod_mod_of_dvd q (Nat.pow_dvd_pow 2 hn)]

/-- Any natural is at most its bitwise OR with another. -/
theorem le_or_right (a b : Nat) : b ≤ a ||| b :=
  Nat.le_of_testBit fun i h => by simp [Nat.testBit_or, h]

/-- The value returned by `read_bits n` is below `2 ^ n` whenever `n ≤ 16`. -/
theorem read_bits_lt (bq : BitQueue) (s : List Nat) (n : Nat) (hn : n ≤ 16) :
    (bq.read_bits s n).1 < 2 ^ n := by
  unfold BitQueue.read_bits
  simp only
  rw [low_bits_eq_mod _ n hn]
  exact Nat.mod_lt _ (Nat.pos_pow_of_pos n (by omega))

/-! ### Claim C5 -/

/-- Claim C5: `read_bits n` with `n ≤ 16` refills only when fewer than `n`
bits are buffered (first conjunct: no refill means the stream is untouched
and the low `n` buffered bits are returned and removed); a refill pulls
exactly two bytes as a little-endian word, each byte defaulting to 0 at end
of stream, appends them above the existing buffered bits and adds exactly 16
to the buffered count no matter how many bytes the source supplied (second
conjunct); on an exhausted source the stream stays empty and a zeroed queue
keeps yielding 0, i.e. end of stream behaves as an infinite run of zero bits
rather than an error (third conjunct). -/
theorem C5_read_bits_spec (bq : BitQueue) (s : List Nat) (n : Nat)
    (hn : n ≤ 16) :
    (n ≤ bq.bits_in_queue →
      bq.read_bits s n =
        (bq.bit_queue % 2 ^ n,
         ⟨bq.bit_queue >>> n, bq.bits_in_queue - n⟩, s)) ∧
    (bq.bits_in_queue < n →
      bq.read_bits s n =
        (((bq.bit_queue |||
             (((((s.drop 1).headD 0) <<< 8 ||| s.headD 0)
                 <<< bq.bits_in_queue) % 2 ^ 32)) % 2 ^ 32) % 2 ^ n,
         ⟨((bq.bit_queue |||
             (((((s.drop 1).headD 0) <<< 8 ||| s.headD 0)
                 <<< bq.bits_in_queue) % 2 ^ 32)) % 2 ^ 32) >>> n,
          bq.bits_in_queue + 16 - n⟩,
         s.drop 2)) ∧
    (s = [] → (bq.read_bits s n).2.2 = [] ∧
      (bq.bit_queue = 0 → (bq.read_bits s n).1 = 0)) := by
  refine ⟨fun h => ?_, fun h => ?_, fun h => ?_⟩
  · unfold BitQueue.read_bits
    rw [if_neg (by omega)]
    simp only
    rw [low_bits_eq_mod _ n hn]
  · unfold BitQueue.read_bits BitQueue.refill
    rw [if_pos (by omega)]
    simp only
    rw [low_bits_eq_mod _ n hn]
  · subst h
    unfold BitQueue.read_bits BitQueue.refill
    by_cases hq : bq.bits_in_queue < n
    · rw [if_pos hq]
      constructor
      · simp
      · intro h0
        simp only
        rw [low_bits_eq_mod _ n hn]
        simp [h0]
    · rw [if_neg hq]
      constructor
      · rfl
      · intro h0
        simp only
        rw [low_bits_eq_mod _ n hn]
        simp [h0]

/-- Witness for C5 at a concrete queue and stream: five buffered bits `101`,
stream `[1, 2]`, reading two bits returns `01` without touching the stream. -/
theorem C5_witness :
    BitQueue.read_bits ⟨5, 3⟩ [1, 2] 2 = (1, ⟨1, 1⟩, [1, 2]) := by
  have h := (C5_read_bits_spec ⟨5, 3⟩ [1, 2] 2 (by decide)).1 (by decide)
  exact h.trans (by decide)

/-! ### Claims C3 and C10: the back-reference copy loop -/

/-- Invariant of the copy loop: with `1 ≤ offset ≤ len` and the output
currently `len + j` long, `k` more iterations succeed, extend the output by
`k` bytes, and every appended byte equals the byte `offset` positions
earlier in the final list. -/
theorem expandGo_spec (len offset : Nat) (h1 : 1 ≤ offset)
    (h2 : offset ≤ len) :
    ∀ (k j : Nat) (out : List Nat), out.length = len + j →
    ∃ res, expandGo len offset j k out = some res ∧
      res.length = len + j + k ∧
      res.take (len + j) = out ∧
      ∀ i, j ≤ i → i < j + k → res.get? (len + i) = res.get? (len - offset + i)
  | 0, j, out, hlen =>
    ⟨out, rfl, by omega, by rw [← hlen, List.take_length],
      fun i hi1 hi2 => by omega⟩
  | k + 1, j, out, hlen => by
    have hidx : len - offset + j < out.length := by omega
    obtain ⟨b, hb⟩ : ∃ b, out.get? (len - offset + j) = some b :=
      ⟨out.get ⟨_, hidx⟩, List.get?_eq_get hidx⟩
    have hstep : expandGo len offset j (k + 1) out =
        expandGo len offset (j + 1) k (out ++ [b]) := by
      simp only [expandGo]
      rw [if_neg (by omega), hb]
    have hlen2 : (out ++ [b]).length = len + (j + 1) := by
      simp only [List.length_append, List.length_singleton, hlen]
      omega
    obtain ⟨res, hres, hrlen, hrtake, hrget⟩ :=
      expandGo_spec len offset h1 h2 k (j + 1) (out ++ [b]) hlen2
    have hrtake1 : res.take (len + j + 1) = out ++ [b] := by
      rw [show len + j + 1 = len + (j + 1) from by omega]
      exact hrtake
    refine ⟨res, hstep.trans hres, by omega, ?_, ?_⟩
    · have h3 : res.take (len + j) = (out ++ [b]).take (len + j) := by
        rw [← hrtake1, List.take_take]
        congr 1
        omega
      rw [h3, ← hlen, List.take_left]
    · intro i hi1 hi2
      rcases Nat.eq_or_lt_of_le hi1 with heq | hij
      · subst heq
        have hb1 : res.get? (len + j) = some b := by
          rw [show res.get? (len + j) = (res.take (len + j + 1)).get? (len + j)
                from (List.get?_take (by omega)).symm,
            hrtake1, ← hlen, List.get?_concat_length]
        have hb2 : res.get? (len - offset + j) = some b := by
          rw [show res.get? (len - offset + j) =
                  (res.take (len + j + 1)).get? (len - offset + j)
                from (List.get?_take (by omega)).symm,
            hrtake1, List.get?_append hidx]
          exact hb
        rw [hb1, hb2]
      · exact hrget i hij (by omega)

/-- Claim C3: with `1 ≤ match_offset ≤ len`, back-reference expansion appends
exactly `match_count` bytes one at a time, preserving the existing output,
and the byte landing at position `len + j` equals the byte at position
`len - match_offset + j` of the final output — a self-overlapping copy reads
bytes appended earlier in the same expansion.  Concretely, for any output
`[a, b, c]` with `match_offset = 2` and `match_count = 5` the appended bytes
are exactly `b, c, b, c, b`. -/
theorem C3_expand_match_overlap (out : List Nat) (offset count : Nat)
    (h1 : 1 ≤ offset) (h2 : offset ≤ out.length) :
    (∃ res, expand_match out offset count = some res ∧
      res.length = out.length + count ∧
      res.take out.length = out ∧
      ∀ j < count,
        res.get? (out.length + j) = res.get? (out.length - offset + j)) ∧
    ∀ a b c : Nat, expand_match [a, b, c] 2 5 = some [a, b, c, b, c, b, c, b] := by
  constructor
  · obtain ⟨res, hres, hrlen, hrtake, hrget⟩ :=
      expandGo_spec out.length offset h1 h2 count 0 out rfl
    exact ⟨res, hres, by omega, hrtake,
      fun j hj => hrget j (by omega) (by omega)⟩
  · intro a b c
    rfl

/-- Witness for C3: the concrete overlapping copy, obtained by applying the
claim theorem at output `[1, 2, 3]`, `match_offset = 2`, `match_count = 5`. -/
theorem C3_witness : expand_match [1, 2, 3] 2 5 = some [1, 2, 3, 2, 3, 2, 3, 2] :=
  (C3_expand_match_overlap [1, 2, 3] 2 5 (by decide) (by decide)).2 1 2 3

/-- Claim C10 (amended): the back-reference copy is panic-free exactly on the
guarded side — whenever the decoded `match_offset` is between 1 and the
current output length the whole copy succeeds (first conjunct) — but when
`match_offset` exceeds the output length the very first iteration's
`len - match_offset` underflows and the copy panics (second conjunct); the
code performs no check keeping `match_offset` within bounds. -/
theorem C10_expand_match_safety (out : List Nat) (offset count : Nat) :
    (1 ≤ offset → offset ≤ out.length →
      ∃ res, expand_match out offset count = some res ∧
        res.length = out.length + count) ∧
    (out.length < offset → 1 ≤ count → expand_match out offset count = none) := by
  constructor
  · intro h1 h2
    obtain ⟨res, hres, hrlen, -, -⟩ :=
      expandGo_spec out.length offset h1 h2 count 0 out rfl
    exact ⟨res, hres, by omega⟩
  · intro h1 h2
    obtain ⟨c, rfl⟩ : ∃ c, count = c + 1 := ⟨count - 1, by omega⟩
    unfold expand_match
    simp only [expandGo]
    rw [if_pos h1]

/-- Counterexample for C10: a 24-byte input whose RNC1 header is valid
(1 block) and whose bitstream decodes, in the first subchunk, a literal run
of 0 and then a match with `match_offset = 1` while the output is still
empty; `decompress_rnc1` ends in the modelled panic (the Rust code's `usize`
underflow of `len - match_offset`), not in an `Ok` or a `DecompressError`. -/
theorem C10_counterexample :
    decompress_rnc1 ([82, 78, 67, 1, 0, 0, 0, 0, 0, 0, 0, 0, 0, 0, 0, 0, 0, 1]
        ++ [132, 8, 17, 66, 0, 0]) = (.crash, []) := by
  decide

/-- Witness for C10: the guarded copy succeeds on output `[5]` with offset 1
and count 3, and panics on empty output with offset 1. -/
theorem C10_witness :
    (∃ res, expand_match [5] 1 3 = some res ∧ res.length = 4) ∧
      expand_match [] 1 1 = none :=
  ⟨(C10_expand_match_safety [5] 1 3).1 (by decide) (by decide),
   (C10_expand_match_safety [] 1 1).2 (by decide) (by decide)⟩

/-! ### Claims C1 and C6: symbol value decoding -/

/-- Scanning a table prefix none of whose slots matches (each is either
unused or stores a code different from the peeked masked bits) leaves the
scan at the remaining slots, with the running index advanced by the prefix
length. -/
theorem input_value_go_skip (bq : BitQueue) (s : List Nat) (pre : List Node)
    (rest : List Node) (i : Nat)
    (h : ∀ m ∈ pre, m.bit_depth = 0 ∨
      m.l3 ≠ bq.peek s &&& (2 ^ m.bit_depth - 1)) :
    input_value_go bq s (pre ++ rest) i =
      input_value_go bq s rest (i + pre.length) := by
  induction pre generalizing i with
  | nil => simp
  | cons m pre ih =>
    have hm := h m (by simp)
    have harith : i + (m :: pre).length = (i + 1) + pre.length := by
      simp only [List.length_cons]
      omega
    rw [harith, List.cons_append]
    by_cases hd : m.bit_depth = 0
    · conv_lhs => unfold input_value_go
      rw [if_pos hd]
      exact ih (i + 1) (fun x hx => h x (by simp [hx]))
    · have hne : m.l3 ≠ bq.peek s &&& (2 ^ m.bit_depth - 1) :=
        hm.resolve_left hd
      conv_lhs => unfold input_value_go
      rw [if_neg hd, if_neg hne]
      exact ih (i + 1) (fun x hx => h x (by simp [hx]))

/-- Claim C1: when the first matching slot of the table sits at index
`pre.length` (all earlier slots fail to match), `input_value` consumes that
slot's code bits; for index 0 or 1 the decoded value is the index itself
(first conjunct); for index `i ≥ 2` it consumes exactly `i - 1` additional
raw bits `e` (the second `read_bits` call in the stated result) and returns
`e ||| (1 <<< (i - 1))`, a value in `[2 ^ (i - 1), 2 ^ i)`; at index 5 that
is 4 extra bits and a value in `[16, 31]`. -/
theorem C1_input_value_escape (pre : List Node) (node : Node)
    (rest : List Node) (bq : BitQueue) (s : List Nat)
    (hskip : ∀ m ∈ pre, m.bit_depth = 0 ∨
      m.l3 ≠ bq.peek s &&& (2 ^ m.bit_depth - 1))
    (hd : node.bit_depth ≠ 0)
    (hm : node.l3 = bq.peek s &&& (2 ^ node.bit_depth - 1)) :
    (pre.length < 2 →
      input_value (pre ++ node :: rest) bq s =
        some (pre.length, (bq.read_bits s node.bit_depth).2)) ∧
    (2 ≤ pre.length → pre.length ≤ 17 →
      ∃ e bq2 s2,
        (bq.read_bits s node.bit_depth).2.1.read_bits
            (bq.read_bits s node.bit_depth).2.2 (pre.length - 1) =
          (e, bq2, s2) ∧
        input_value (pre ++ node :: rest) bq s =
          some (e ||| 2 ^ (pre.length - 1), bq2, s2) ∧
        e < 2 ^ (pre.length - 1) ∧
        2 ^ (pre.length - 1) ≤ e ||| 2 ^ (pre.length - 1) ∧
        e ||| 2 ^ (pre.length - 1) < 2 ^ pre.length ∧
        (pre.length = 5 →
          16 ≤ e ||| 2 ^ (pre.length - 1) ∧
            e ||| 2 ^ (pre.length - 1) ≤ 31)) := by
  have hgo : input_value (pre ++ node :: rest) bq s =
      input_value_go bq s (node :: rest) pre.length := by
    rw [input_value, input_value_go_skip bq s pre _ 0 hskip, Nat.zero_add]
  have hbody : input_value_go bq s (node :: rest) pre.length =
      (if pre.length < 2 then
        some (pre.length, (bq.read_bits s node.bit_depth).2)
      else
        some ((((bq.read_bits s node.bit_depth).2.1.read_bits
              (bq.read_bits s node.bit_depth).2.2 (pre.length - 1)).1 |||
            2 ^ (pre.length - 1),
          ((bq.read_bits s node.bit_depth).2.1.read_bits
              (bq.read_bits s node.bit_depth).2.2 (pre.length - 1)).2))) := by
    unfold input_value_go
    rw [if_neg hd, if_pos hm]
  constructor
  · intro hlt
    rw [hgo, hbody, if_pos hlt]
  · intro hge hle
    set r2 := (bq.read_bits s node.bit_depth).2.1.read_bits
        (bq.read_bits s node.bit_depth).2.2 (pre.length - 1) with hr2
    have hk : pre.length - 1 ≤ 16 := by omega
    have he : r2.1 < 2 ^ (pre.length - 1) := by
      rw [hr2]
      exact read_bits_lt _ _ _ hk
    have hor : r2.1 ||| 2 ^ (pre.length - 1) < 2 ^ pre.length := by
      apply Nat.or_lt_two_pow
      · exact lt_of_lt_of_le he (Nat.pow_le_pow_right (by omega) (by omega))
      · exact Nat.pow_lt_pow_right (by omega) (by omega)
    refine ⟨r2.1, r2.2.1, r2.2.2, rfl, ?_, he, le_or_right _ _, hor, ?_⟩
    · rw [hgo, hbody, if_neg (by omega)]
    · intro h5
      rw [h5] at hor ⊢
      constructor
      · calc (16 : Nat) = 2 ^ (5 - 1) := by norm_num
        _ ≤ r2.1 ||| 2 ^ (5 - 1) := le_or_right _ _
      · have h32 : (2 : Nat) ^ 5 = 32 := by norm_num
        omega

/-- Witness for C1 at a match on slot index 5: five unused slots, then a
1-bit code `0`; the decoder reads the code bit and 4 extra zero bits and
returns `0 ||| (1 <<< 4) = 16`. -/
theorem C1_witness :
    input_value (List.replicate 5 (⟨0, 0⟩ : Node) ++ [(⟨0, 1⟩ : Node)])
        ⟨0, 0⟩ [] = some (16, ⟨0, 11⟩, []) := by
  obtain ⟨e, bq2, s2, h1, h2, -, -, -, -⟩ :=
    (C1_input_value_escape (List.replicate 5 ⟨0, 0⟩) ⟨0, 1⟩ [] ⟨0, 0⟩ []
      (by decide) (by decide) (by decide)).2 (by decide) (by decide)
  have h3 : (e, bq2, s2) = ((0 : Nat), (⟨0, 11⟩ : BitQueue), ([] : List Nat)) := by
    rw [← h1]
    decide
  rw [Prod.ext_iff, Prod.ext_iff] at h3
  obtain ⟨rfl, rfl, rfl⟩ := h3
  exact h2.trans (by decide)

/-- Claim C6 (amended): when no slot of the table with nonzero bit depth
stores a code matching the peeked masked bits, `input_value` scans past the
end of the table and panics with an out-of-bounds index (`none` in this
model) — the condition is a panic, not a surfaced decode error. -/
theorem C6_no_match_panics (table : Table) (bq : BitQueue) (s : List Nat)
    (h : ∀ m ∈ table, m.bit_depth = 0 ∨
      m.l3 ≠ bq.peek s &&& (2 ^ m.bit_depth - 1)) :
    input_value table bq s = none := by
  have h1 : input_value table bq s = input_value_go bq s [] table.length := by
    rw [input_value, show (table : List Node) = table ++ [] from
      (List.append_nil table).symm, input_value_go_skip bq s table [] 0 h,
      Nat.zero_add]
    rw [List.append_nil]
  rw [h1]
  rfl

/-- Counterexample to C6: a fresh (all-unused) table matches nothing, and
`input_value` panics (`none`) instead of producing a decode error; a full
24-byte RNC1 stream (valid header, one block, three empty tables, one
subchunk) drives `decompress_rnc1` into that panic: the outcome is `crash`,
not an `Ok` and not a `DecompressError`. -/
theorem C6_counterexample :
    input_value table_new ⟨0, 16⟩ [] = none ∧
    decompress_rnc1 ([82, 78, 67, 1, 0, 0, 0, 0, 0, 0, 0, 0, 0, 0, 0, 0, 0, 1]
        ++ [0, 0, 2, 0, 0, 0]) = (.crash, []) := by
  constructor
  · decide
  · decide

/-- Witness for C6's amended statement: the all-unused fresh table with an
empty stream, via the theorem itself. -/
theorem C6_witness : input_value table_new ⟨0, 0⟩ [] = none :=
  C6_no_match_panics table_new ⟨0, 0⟩ [] (by decide)

/-! ### Claim C4: match decode order within a subchunk -/

/-- Claim C4: in a subchunk that is not the block's last (first conjunct),
after the literal run the decoder decodes one value `v1` via the length
table on the state left by the literals, giving `match_distance = v1 + 1`,
and only then one value `v2` via the position table on the state left by the
first decode, giving `match_count = v2 + 2` — the state threading fixes the
order; the block's last subchunk (second conjunct) performs no table decode
after the literals.  The remaining conjuncts identify `last` with the
position in the block: a subchunk is decoded as last exactly when it is the
final one of the block's count. -/
theorem C4_subchunk_match_order (raw_table len_table pos_table : Table)
    (st : DecSt) :
    (∀ st', decode_one_subchunk raw_table len_table pos_table false st =
        .ok st' →
      ∃ v bq1 s1 sL outL v1 bq2 s2 v2 bq3 s3 out',
        input_value raw_table st.1 st.2.1 = some (v, bq1, s1) ∧
        doLiterals v s1 st.2.2 = some (sL, outL) ∧
        input_value len_table bq1 sL = some (v1, bq2, s2) ∧
        input_value pos_table bq2 s2 = some (v2, bq3, s3) ∧
        expand_match outL (v1 + 1) (v2 + 2) = some out' ∧
        st' = (bq3, s3, out')) ∧
    (∀ st', decode_one_subchunk raw_table len_table pos_table true st =
        .ok st' →
      ∃ v bq1 s1 sL outL,
        input_value raw_table st.1 st.2.1 = some (v, bq1, s1) ∧
        doLiterals v s1 st.2.2 = some (sL, outL) ∧
        st' = (bq1, sL, outL)) ∧
    (∀ r st0, subchunk_loop raw_table len_table pos_table (r + 2) st0 =
      match decode_one_subchunk raw_table len_table pos_table false st0 with
      | .ok st1 => subchunk_loop raw_table len_table pos_table (r + 1) st1
      | e => e) ∧
    (∀ st0, subchunk_loop raw_table len_table pos_table 1 st0 =
      match decode_one_subchunk raw_table len_table pos_table true st0 with
      | .ok st1 => subchunk_loop raw_table len_table pos_table 0 st1
      | e => e) := by
  refine ⟨fun st' h => ?_, fun st' h => ?_, fun r st0 => ?_, fun st0 => ?_⟩
  · unfold decode_one_subchunk at h
    rcases h1 : input_value raw_table st.1 st.2.1 with - | ⟨v, bq1, s1⟩
    · rw [h1] at h
      dsimp only at h
      exact absurd h (by simp)
    · rw [h1] at h
      dsimp only at h
      rcases h2 : doLiterals v s1 st.2.2 with - | ⟨sL, outL⟩
      · rw [h2] at h
        dsimp only at h
        exact absurd h (by simp)
      · rw [h2] at h
        dsimp only at h
        rw [if_neg (by simp)] at h
        rcases h3 : input_value len_table bq1 sL with - | ⟨v1, bq2, s2⟩
        · rw [h3] at h
          dsimp only at h
          exact absurd h (by simp)
        · rw [h3] at h
          dsimp only at h
          rcases h4 : input_value pos_table bq2 s2 with - | ⟨v2, bq3, s3⟩
          · rw [h4] at h
            dsimp only at h
            exact absurd h (by simp)
          · rw [h4] at h
            dsimp only at h
            rcases h5 : expand_match outL (v1 + 1) (v2 + 2) with - | out2
            · rw [h5] at h
              dsimp only at h
              exact absurd h (by simp)
            · rw [h5] at h
              dsimp only at h
              injection h with h6
              exact ⟨v, bq1, s1, sL, outL, v1, bq2, s2, v2, bq3, s3, out2,
                rfl, h2, h3, h4, h5, h6.symm⟩
  · unfold decode_one_subchunk at h
    rcases h1 : input_value raw_table st.1 st.2.1 with - | ⟨v, bq1, s1⟩
    · rw [h1] at h
      dsimp only at h
      exact absurd h (by simp)
    · rw [h1] at h
      dsimp only at h
      rcases h2 : doLiterals v s1 st.2.2 with - | ⟨sL, outL⟩
      · rw [h2] at h
        dsimp only at h
        exact absurd h (by simp)
      · rw [h2] at h
        dsimp only at h
        rw [if_pos rfl] at h
        injection h with h6
        exact ⟨v, bq1, s1, sL, outL, rfl, h2, h6.symm⟩
  · rfl
  · rfl

/-- Witness for C4 at concrete single-slot tables and a buffered all-zero bit
queue over output `[7]`: the non-last subchunk decodes `v1 = 0`, `v2 = 0`
and expands offset 1, count 2. -/
theorem C4_witness :
    ∃ v bq1 s1 sL outL v1 bq2 s2 v2 bq3 s3 out',
      input_value [⟨0, 1⟩] (⟨0, 32⟩ : BitQueue) [] = some (v, bq1, s1) ∧
      doLiterals v s1 [7] = some (sL, outL) ∧
      input_value [⟨0, 1⟩] bq1 sL = some (v1, bq2, s2) ∧
      input_value [⟨0, 1⟩] bq2 s2 = some (v2, bq3, s3) ∧
      expand_match outL (v1 + 1) (v2 + 2) = some out' ∧
      ((⟨0, 29⟩ : BitQueue), ([] : List Nat), [7, 7, 7]) = (bq3, s3, out') :=
  (C4_subchunk_match_order [⟨0, 1⟩] [⟨0, 1⟩] [⟨0, 1⟩] (⟨0, 32⟩, [], [7])).1
    (⟨0, 29⟩, [], [7, 7, 7]) (by decide)

/-! ### Claim C9: table reuse across blocks -/

/-- A code-assignment pass rewrites slot contents but never the slot count. -/
theorem assign_pass_length (bc dv : Nat) :
    ∀ (ns : List Node) (val : Nat),
      (assign_pass bc dv ns val).1.length = ns.length
  | [], _ => rfl
  | n :: ns, val => by
    unfold assign_pass
    by_cases h : n.bit_depth = bc
    · rw [if_pos h]
      simp [assign_pass_length bc dv ns]
    · rw [if_neg h]
      simp [assign_pass_length bc dv ns]

/-- The assignment loop never changes the slot count. -/
theorem assign_loop_length :
    ∀ (k bc dv val : Nat) (ns : List Node),
      (assign_loop k bc dv val ns).length = ns.length
  | 0, _, _, _, _ => rfl
  | k + 1, bc, dv, val, ns => by
    unfold assign_loop
    rw [assign_loop_length k, assign_pass_length]

/-- Reading depths never changes the slot count. -/
theorem read_depths_length :
    ∀ (ns : List Node) (bq : BitQueue) (s : List Nat),
      (read_depths bq s ns).1.length = ns.length
  | [], _, _ => rfl
  | n :: ns, bq, s => by
    unfold read_depths
    simp [read_depths_length ns]

/-- Claim C9 (amended): `read_table` reuses the caller's table storage — with
a leaf count of 0 it returns the table argument exactly as passed in, so the
previous block's slot contents (bit depths and codes) survive whole (first
conjunct), and in every case the slots from index `leaf_nodes` on keep their
previous contents (second conjunct); nothing ever clears a table between
blocks. -/
theorem C9_read_table_carryover (bq : BitQueue) (s : List Nat)
    (table : Table) :
    (min (bq.read_bits s 5).1 16 = 0 →
      read_table bq s table = (table, (bq.read_bits s 5).2)) ∧
    (read_table bq s table).1.drop (min (bq.read_bits s 5).1 16) =
      table.drop (min (bq.read_bits s 5).1 16) := by
  constructor
  · intro h0
    unfold read_table
    rw [if_pos h0]
  · by_cases h0 : min (bq.read_bits s 5).1 16 = 0
    · rw [h0]
      unfold read_table
      rw [if_pos h0]
    · unfold read_table
      rw [if_neg h0]
      dsimp only
      set A := assign_codes (read_depths (bq.read_bits s 5).2.1
          (bq.read_bits s 5).2.2
          (List.take (min (bq.read_bits s 5).1 16) table)).1 with hAdef
      have hA : A.length = min (min (bq.read_bits s 5).1 16) table.length := by
        rw [hAdef, assign_codes, assign_loop_length, read_depths_length,
          List.length_take]
      rcases Nat.le_total (min (bq.read_bits s 5).1 16) table.length with
        hle | hle
      · set B := table.drop (min (bq.read_bits s 5).1 16) with hBdef
        rw [show min (min (bq.read_bits s 5).1 16) table.length =
            min (bq.read_bits s 5).1 16 from by omega] at hA
        rw [← hA, List.drop_left]
      · have hB : table.drop (min (bq.read_bits s 5).1 16) = [] :=
          List.drop_eq_nil_of_le hle
        rw [hB, List.append_nil]
        apply List.drop_eq_nil_of_le
        omega

/-- Counterexample to C9: on a stream whose 5-bit leaf count is 0, a table
still holding a previous block's slot (depth 3, stored code 7) passes
through `read_table` untouched: the table is not left empty and the stale
slot stays usable. -/
theorem C9_counterexample :
    read_table ⟨0, 0⟩ [0, 0] ((⟨7, 3⟩ : Node) :: List.replicate 15 ⟨0, 0⟩) =
      ((⟨7, 3⟩ : Node) :: List.replicate 15 ⟨0, 0⟩, ⟨0, 11⟩, []) ∧
    ∃ n ∈ ((⟨7, 3⟩ : Node) :: List.replicate 15 (⟨0, 0⟩ : Node)),
      n.bit_depth ≠ 0 := by
  constructor
  · decide
  · exact ⟨⟨7, 3⟩, by simp, by decide⟩

/-- Witness for C9's amended statement: a zero leaf count on the fresh
16-slot table, via the theorem itself. -/
theorem C9_witness :
    read_table ⟨0, 0⟩ [0, 0] table_new = (table_new, ⟨0, 11⟩, []) := by
  have h := (C9_read_table_carryover ⟨0, 0⟩ [0, 0] table_new).1 (by decide)
  exact h.trans (by decide)

/-! ### Claim C8: the directory table -/

/-- For a 24-bit value, a zero result of `>> 23` says exactly that bit 23 is
clear. -/
theorem shift23_testBit (raw : Nat) (h : raw < 2 ^ 24) :
    raw >>> 23 = 0 ↔ raw.testBit 23 = false := by
  rw [Nat.shiftRight_eq_div_pow, Nat.testBit_to_div_mod]
  have hq : raw / 2 ^ 23 < 2 := by omega
  constructor
  · intro h0
    simp [h0]
  · intro h0
    rw [decide_eq_false_iff_not] at h0
    omega

/-- For a 24-bit value, a zero result of `>> 22` says exactly that bits 23
and 22 are both clear. -/
theorem shift22_testBit (raw : Nat) (h : raw < 2 ^ 24) :
    raw >>> 22 = 0 ↔
      (raw.testBit 23 = false ∧ raw.testBit 22 = false) := by
  rw [Nat.shiftRight_eq_div_pow, Nat.testBit_to_div_mod,
    Nat.testBit_to_div_mod]
  have hq : raw / 2 ^ 22 < 4 := by omega
  have hdd : raw / 2 ^ 23 = raw / 2 ^ 22 / 2 := by
    rw [Nat.div_div_eq_div_mul]
    norm_num
  rw [hdd]
  rw [decide_eq_false_iff_not, decide_eq_false_iff_not]
  omega

/-- Per-entry contract of the entry loop: given a byte-bounded stream, the
`i`-th of the `k` parsed entries takes its size and flags from the 24-bit
raw field read at byte offset `8 * i + 5` of that very stream (each record
is 2 + 3 + 3 bytes; the size field is its last three bytes): the stored
size is the field's low 22 bits; `has_file_header` is bit 23 clear, but
`uses_file_header` demands bits 23 and 22 both clear (`raw >> 22 == 0`). -/
theorem read_entries_spec :
    ∀ (k : Nat) (s : List Nat), (∀ b ∈ s, b < 256) →
    ∀ dir rest, read_entries k s = some (dir, rest) →
    dir.length = k ∧
    ∀ i e, dir.get? i = some e →
      ∃ raw s2, read_le_u24 (s.drop (8 * i + 5)) = some (raw, s2) ∧
        raw < 2 ^ 24 ∧ e.size = raw % 2 ^ 22 ∧
        (e.has_file_header = true ↔ raw.testBit 23 = false) ∧
        (e.uses_file_header = true ↔
          (raw.testBit 23 = false ∧ raw.testBit 22 = false)) ∧
        e.size < 2 ^ 22
  | 0, s, hb, dir, rest, h => by
    cases h
    exact ⟨rfl, fun i e he => by simp at he⟩
  | k + 1, s, hb, dir, rest, h => by
    rcases s with _ | ⟨a0, _ | ⟨a1, _ | ⟨a2, _ | ⟨a3, _ | ⟨a4, _ | ⟨a5,
      _ | ⟨a6, _ | ⟨a7, s2⟩⟩⟩⟩⟩⟩⟩⟩
    any_goals exact Option.noConfusion h
    unfold read_entries at h
    dsimp only [read_le_u16, read_le_u24] at h
    rcases hrec : read_entries k s2 with _ | ⟨dir2, rest2⟩ <;> rw [hrec] at h
    · exact absurd h (by simp)
    · dsimp only at h
      injection h with h1
      injection h1 with hdir hrest
      obtain ⟨hlen, hall⟩ := read_entries_spec k s2
        (fun b hbm => hb b (by simp [hbm])) dir2 rest2 hrec
      subst hdir
      set raw := a7 <<< 16 ||| a6 <<< 8 ||| a5 with hrawdef
      have h5 : a5 < 256 := hb a5 (by simp)
      have h6 : a6 < 256 := hb a6 (by simp)
      have h7 : a7 < 256 := hb a7 (by simp)
      have hraw : raw < 2 ^ 24 := by
        rw [hrawdef]
        apply Nat.or_lt_two_pow
        · apply Nat.or_lt_two_pow
          · rw [Nat.shiftLeft_eq]
            calc a7 * 2 ^ 16 ≤ 255 * 2 ^ 16 :=
              Nat.mul_le_mul_right _ (by omega)
            _ < 2 ^ 24 := by norm_num
          · rw [Nat.shiftLeft_eq]
            calc a6 * 2 ^ 8 ≤ 255 * 2 ^ 8 :=
              Nat.mul_le_mul_right _ (by omega)
            _ < 2 ^ 24 := by norm_num
        · omega
      refine ⟨by simp [hlen], fun i e he => ?_⟩
      cases i with
      | zero =>
        rw [List.get?_cons_zero] at he
        injection he with hee
        subst hee
        refine ⟨raw, s2, ?_, hraw, ?_, ?_, ?_, ?_⟩
        · rw [hrawdef]
          rfl
        · dsimp only
          rw [show (4194303 : Nat) = 2 ^ 22 - 1 from by norm_num,
            Nat.and_pow_two_sub_one_eq_mod]
        · dsimp only
          rw [decide_eq_true_eq]
          exact shift23_testBit _ hraw
        · dsimp only
          rw [decide_eq_true_eq]
          exact shift22_testBit _ hraw
        · dsimp only
          rw [show (4194303 : Nat) = 2 ^ 22 - 1 from by norm_num,
            Nat.and_pow_two_sub_one_eq_mod]
          exact Nat.mod_lt _ (by norm_num)
      | succ i =>
        rw [List.get?_cons_succ] at he
        obtain ⟨raw2, s3, hread, hr2, hsz, hhf, huf, hsz2⟩ := hall i e he
        refine ⟨raw2, s3, ?_, hr2, hsz, hhf, huf, hsz2⟩
        rw [show 8 * (i + 1) + 5 = 8 + (8 * i + 5) from by omega,
          ← List.drop_drop]
        exact hread

/-- Claim C8 (amended): after the 32-bit little-endian entry count `n`,
`read_dinner_table` produces exactly `n` Entry records; the `i`-th record's
size and flags come from the 24-bit raw field read at byte offset
`8 * i + 5` of the post-count stream: the size is that field masked to its
low 22 bits, `has_file_header` holds iff bit 23 of the field is clear, and
`uses_file_header` holds iff bits 23 and 22 are both clear (the code tests
`raw >> 22 == 0`, which includes bit 23 — not bit 22 alone). -/
theorem C8_dinner_table (s : List Nat) (hb : ∀ b ∈ s, b < 256)
    (n : Nat) (s1 : List Nat) (dir : List Entry) (rest : List Nat)
    (hc : read_le_u32 s = some (n, s1))
    (h : read_dinner_table s = some (dir, rest)) :
    dir.length = n ∧
    ∀ i e, dir.get? i = some e →
      ∃ raw s2, read_le_u24 (s1.drop (8 * i + 5)) = some (raw, s2) ∧
        raw < 2 ^ 24 ∧ e.size = raw % 2 ^ 22 ∧
        (e.has_file_header = true ↔ raw.testBit 23 = false) ∧
        (e.uses_file_header = true ↔
          (raw.testBit 23 = false ∧ raw.testBit 22 = false)) ∧
        e.size < 2 ^ 22 := by
  unfold read_dinner_table at h
  rw [hc] at h
  dsimp only at h
  have hb1 : ∀ b ∈ s1, b < 256 := by
    rcases s with _ | ⟨b0, _ | ⟨b1, _ | ⟨b2, _ | ⟨b3, s4⟩⟩⟩⟩ <;>
      cases hc
    intro b hbm
    exact hb b (by simp [hbm])
  exact read_entries_spec n s1 hb1 dir rest h

/-- Counterexample to C8: one entry whose raw 24-bit size field is
`0x800000` — bit 23 set, bit 22 clear.  The claim says `uses_file_header`
must then be true (bit 22 clear), but the code computes `raw >> 22 == 0`,
which is false because bit 23 is set. -/
theorem C8_counterexample :
    read_dinner_table [1, 0, 0, 0, 5, 0, 0, 0, 0, 0, 0, 128] =
      some ([{ number := 5, offset := 0, size := 0,
               has_file_header := false, uses_file_header := false }], []) ∧
    (8388608 : Nat).testBit 22 = false ∧
    ¬((false : Bool) = true ↔ (8388608 : Nat).testBit 22 = false) := by
  refine ⟨by decide, by decide, by decide⟩

/-- Witness for C8 at a two-entry directory (raw size fields 3 and
`0x400006`): two records, and the second record's raw field, read at byte
offset 13 of the post-count stream, is `0x400006` — bit 22 set, so
`uses_file_header` is false while `has_file_header` is true and the size is
the low 22 bits, 6. -/
theorem C8_witness :
    ([⟨1, 2, 3, true, true⟩, ⟨4, 5, 6, true, false⟩] : List Entry).length
        = 2 ∧
    ∃ raw s2,
      read_le_u24 (([1, 0, 2, 0, 0, 3, 0, 0, 4, 0, 5, 0, 0, 6, 0, 64] :
          List Nat).drop (8 * 1 + 5)) = some (raw, s2) ∧
      raw < 2 ^ 24 ∧ (6 : Nat) = raw % 2 ^ 22 ∧
      ((true : Bool) = true ↔ raw.testBit 23 = false) ∧
      ((false : Bool) = true ↔
        (raw.testBit 23 = false ∧ raw.testBit 22 = false)) ∧
      (6 : Nat) < 2 ^ 22 := by
  obtain ⟨h1, h2⟩ := C8_dinner_table
    [2, 0, 0, 0, 1, 0, 2, 0, 0, 3, 0, 0, 4, 0, 5, 0, 0, 6, 0, 64]
    (by decide) 2 [1, 0, 2, 0, 0, 3, 0, 0, 4, 0, 5, 0, 0, 6, 0, 64]
    [⟨1, 2, 3, true, true⟩, ⟨4, 5, 6, true, false⟩] []
    (by decide) (by decide)
  exact ⟨h1, h2 1 ⟨4, 5, 6, true, false⟩ (by decide)⟩

/-! ### Claim C7: the raw-byte fallback after a failed decompression -/

/-- A successful big-endian 32-bit read consumes exactly four bytes. -/
theorem read_be_u32_drop :
    ∀ (s : List Nat) (v : Nat) (s' : List Nat),
      read_be_u32 s = some (v, s') → s' = s.drop 4
  | a :: b :: c :: d :: s, v, s', h => by
    injection h with h1
    injection h1 with _ h2
    exact h2.symm
  | [], _, _, h => Option.noConfusion h
  | [a], _, _, h => Option.noConfusion h
  | [a, b], _, _, h => Option.noConfusion h
  | [a, b, c], _, _, h => Option.noConfusion h

/-- A successful big-endian 16-bit read consumes exactly two bytes. -/
theorem read_be_u16_drop :
    ∀ (s : List Nat) (v : Nat) (s' : List Nat),
      read_be_u16 s = some (v, s') → s' = s.drop 2
  | a :: b :: s, v, s', h => by
    injection h with h1
    injection h1 with _ h2
    exact h2.symm
  | [], _, _, h => Option.noConfusion h
  | [a], _, _, h => Option.noConfusion h

/-- A successful single-byte read consumes exactly one byte. -/
theorem read_u8_drop :
    ∀ (s : List Nat) (v : Nat) (s' : List Nat),
      read_u8 s = some (v, s') → s' = s.drop 1
  | a :: s, v, s', h => by
    injection h with h1
    injection h1 with _ h2
    exact h2.symm
  | [], _, _, h => Option.noConfusion h

/-- A successful little-endian 16-bit read consumes exactly two bytes. -/
theorem read_le_u16_drop :
    ∀ (s : List Nat) (v : Nat) (s' : List Nat),
      read_le_u16 s = some (v, s') → s' = s.drop 2
  | a :: b :: s, v, s', h => by
    injection h with h1
    injection h1 with _ h2
    exact h2.symm
  | [], _, _, h => Option.noConfusion h
  | [a], _, _, h => Option.noConfusion h

/-- A successful little-endian signed 16-bit read consumes exactly two
bytes. -/
theorem read_le_i16_drop (s : List Nat) (v : Int) (s' : List Nat)
    (h : read_le_i16 s = some (v, s')) : s' = s.drop 2 := by
  unfold read_le_i16 at h
  rcases h1 : read_le_u16 s with _ | ⟨u, s2⟩ <;> rw [h1] at h
  · exact Option.noConfusion h
  · dsimp only at h
    injection h with h2
    injection h2 with _ h3
    rw [← h3]
    exact read_le_u16_drop s u s2 h1

/-- A successful RNC1 header read consumes exactly the 18 header bytes. -/
theorem rncHeaderRead_drop (s : List Nat) (hd : RncHeader) (s' : List Nat)
    (h : rncHeaderRead s = some (hd, s')) : s' = s.drop 18 := by
  rcases s with _ | ⟨s0, _ | ⟨s1, _ | ⟨s2, _ | ⟨s3, s4⟩⟩⟩⟩
  any_goals exact Option.noConfusion h
  unfold rncHeaderRead at h
  dsimp only at h
  rcases h1 : read_be_u32 s4 with _ | ⟨ul, s5⟩
  · rw [h1] at h
    exact Option.noConfusion h
  rw [h1] at h
  dsimp only at h
  rcases h2 : read_be_u32 s5 with _ | ⟨pl, s6⟩
  · rw [h2] at h
    exact Option.noConfusion h
  rw [h2] at h
  dsimp only at h
  rcases h3 : read_be_u16 s6 with _ | ⟨cu, s7⟩
  · rw [h3] at h
    exact Option.noConfusion h
  rw [h3] at h
  dsimp only at h
  rcases h4 : read_be_u16 s7 with _ | ⟨cp, s8⟩
  · rw [h4] at h
    exact Option.noConfusion h
  rw [h4] at h
  dsimp only at h
  rcases h5 : read_u8 s8 with _ | ⟨ov, s9⟩
  · rw [h5] at h
    exact Option.noConfusion h
  rw [h5] at h
  dsimp only at h
  rcases h6 : read_u8 s9 with _ | ⟨bl, s10⟩
  · rw [h6] at h
    exact Option.noConfusion h
  rw [h6] at h
  dsimp only at h
  injection h with hx
  injection hx with _ hs2
  have d1 : s5 = s4.drop 4 := read_be_u32_drop s4 ul s5 h1
  have d2 : s6 = s5.drop 4 := read_be_u32_drop s5 pl s6 h2
  have d3 : s7 = s6.drop 2 := read_be_u16_drop s6 cu s7 h3
  have d4 : s8 = s7.drop 2 := read_be_u16_drop s7 cp s8 h4
  have d5 : s9 = s8.drop 1 := read_u8_drop s8 ov s9 h5
  have d6 : s10 = s9.drop 1 := read_u8_drop s9 bl s10 h6
  subst d1 d2 d3 d4 d5 d6
  rw [← hs2]
  have hr : (s0 :: s1 :: s2 :: s3 :: s4).drop 18 = s4.drop 14 := rfl
  rw [hr]
  simp [List.drop_drop]

/-- A successful resource-header parse consumes exactly the 22 header
bytes. -/
theorem readRHeader_drop (s : List Nat) (hd : RHeader) (s' : List Nat)
    (h : readRHeader s = some (hd, s')) : s' = s.drop 22 := by
  unfold readRHeader at h
  rcases h1 : read_le_u16 s with _ | ⟨flags, t1⟩
  · rw [h1] at h
    exact Option.noConfusion h
  rw [h1] at h
  dsimp only at h
  rcases h2 : read_le_u16 t1 with _ | ⟨x, t2⟩
  · rw [h2] at h
    exact Option.noConfusion h
  rw [h2] at h
  dsimp only at h
  rcases h3 : read_le_u16 t2 with _ | ⟨y, t3⟩
  · rw [h3] at h
    exact Option.noConfusion h
  rw [h3] at h
  dsimp only at h
  rcases h4 : read_le_u16 t3 with _ | ⟨width, t4⟩
  · rw [h4] at h
    exact Option.noConfusion h
  rw [h4] at h
  dsimp only at h
  rcases h5 : read_le_u16 t4 with _ | ⟨height, t5⟩
  · rw [h5] at h
    exact Option.noConfusion h
  rw [h5] at h
  dsimp only at h
  rcases h6 : read_le_u16 t5 with _ | ⟨sp_size, t6⟩
  · rw [h6] at h
    exact Option.noConfusion h
  rw [h6] at h
  dsimp only at h
  rcases h7 : read_le_u16 t6 with _ | ⟨tot_size, t7⟩
  · rw [h7] at h
    exact Option.noConfusion h
  rw [h7] at h
  dsimp only at h
  rcases h8 : read_le_u16 t7 with _ | ⟨n_sprites, t8⟩
  · rw [h8] at h
    exact Option.noConfusion h
  rw [h8] at h
  dsimp only at h
  rcases h9 : read_le_i16 t8 with _ | ⟨offset_x, t9⟩
  · rw [h9] at h
    exact Option.noConfusion h
  rw [h9] at h
  dsimp only at h
  rcases h10 : read_le_i16 t9 with _ | ⟨offset_y, t10⟩
  · rw [h10] at h
    exact Option.noConfusion h
  rw [h10] at h
  dsimp only at h
  rcases h11 : read_le_u16 t10 with _ | ⟨compressed_size, t11⟩
  · rw [h11] at h
    exact Option.noConfusion h
  rw [h11] at h
  dsimp only at h
  injection h with hx
  injection hx with _ hs2
  have d1 : t1 = s.drop 2 := read_le_u16_drop s flags t1 h1
  have d2 : t2 = t1.drop 2 := read_le_u16_drop t1 x t2 h2
  have d3 : t3 = t2.drop 2 := read_le_u16_drop t2 y t3 h3
  have d4 : t4 = t3.drop 2 := read_le_u16_drop t3 width t4 h4
  have d5 : t5 = t4.drop 2 := read_le_u16_drop t4 height t5 h5
  have d6 : t6 = t5.drop 2 := read_le_u16_drop t5 sp_size t6 h6
  have d7 : t7 = t6.drop 2 := read_le_u16_drop t6 tot_size t7 h7
  have d8 : t8 = t7.drop 2 := read_le_u16_drop t7 n_sprites t8 h8
  have d9 : t9 = t8.drop 2 := read_le_i16_drop t8 offset_x t9 h9
  have d10 : t10 = t9.drop 2 := read_le_i16_drop t9 offset_y t10 h10
  have d11 : t11 = t10.drop 2 := read_le_u16_drop t10 compressed_size t11 h11
  subst d1 d2 d3 d4 d5 d6 d7 d8 d9 d10 d11
  rw [← hs2]
  simp [List.drop_drop]

/-- A signature error carries the stream position right after the 18 header
bytes: the RNC1 header was fully consumed before the check. -/
theorem rnc_decode_sigErr (s rem : List Nat)
    (h : rnc_decode s = (.sigErr, rem)) : rem = s.drop 18 := by
  unfold rnc_decode at h
  rcases h1 : rncHeaderRead s with _ | ⟨hd, s2⟩ <;> rw [h1] at h
  · dsimp only at h
    injection h with ha
    exact absurd ha (by simp)
  · dsimp only at h
    by_cases h2 : hd.signature = [82, 78, 67, 1]
    · rw [if_pos h2] at h
      rcases h3 : block_loop hd.blocks table_new table_new table_new
          ((BitQueue.new.read_bits s2 2).2.1,
           (BitQueue.new.read_bits s2 2).2.2, []) with st' | r1 | r1 <;>
        rw [h3] at h
      · rcases st' with ⟨bq', s', out⟩
        dsimp only at h
        injection h with ha
        exact absurd ha (by simp)
      · dsimp only at h
        injection h with ha
        exact absurd ha (by simp)
      · dsimp only at h
        injection h with ha
        exact absurd ha (by simp)
    · rw [if_neg h2] at h
      injection h with _ hb
      rw [← hb]
      exact rncHeaderRead_drop s hd s2 h1

/-- Claim C7 (amended): with the compressed flag set, a signature failure
does not propagate and does not crash — `read_resource` returns a Resource —
but the fallback data is the remainder of the cursor where the failed decode
left it: the RNC1 header read had already consumed 18 bytes past the 22-byte
resource header, so the data is `data.drop 40`-shaped (`rest.drop 18`), not
the bytes immediately after the resource header. -/
theorem C7_fallback (e : Entry) (d : List Nat) (h : RHeader)
    (rest rem : List Nat)
    (he : e.has_file_header = true)
    (hh : readRHeader d = some (h, rest))
    (hc : h.is_compressed = true)
    (hs : rnc_decode rest = (.sigErr, rem)) :
    read_resource e d = .ok ⟨e, some h, rem⟩ ∧ rem = rest.drop 18 ∧
      rest = d.drop 22 := by
  refine ⟨?_, rnc_decode_sigErr rest rem hs, readRHeader_drop d h rest hh⟩
  unfold read_resource
  rw [he]
  rw [if_neg (by simp)]
  rw [hh]
  dsimp only
  rw [if_pos hc]
  unfold decompress_rnc1
  rw [hs]

/-- Counterexample to C7: resource header with the compressed flag set,
followed by the four bytes `"XXXX"` (an invalid signature), 14 further bytes
completing the 18-byte RNC1 header, and one final byte 99.  The claim says
the fallback data must be all 19 bytes after the 22-byte resource header;
the code returns only `[99]` — the remainder after the RNC1 header was
consumed. -/
theorem C7_counterexample :
    read_resource ⟨0, 0, 0, true, true⟩
        ([128, 0] ++ List.replicate 20 0 ++ [88, 88, 88, 88] ++
          List.replicate 14 0 ++ [99]) =
      .ok ⟨⟨0, 0, 0, true, true⟩,
        some ⟨128, 0, 0, 0, 0, 0, 0, 0, 0, 0, 0⟩, [99]⟩ ∧
    ([128, 0] ++ List.replicate 20 0 ++ [88, 88, 88, 88] ++
        List.replicate 14 0 ++ [99]).drop 22 ≠ [99] := by
  refine ⟨by decide, by decide⟩

/-- Witness for C7's amended statement at a concrete resource: two trailing
bytes remain after the failed signature check, and they are exactly
`rest.drop 18` and sit 40 bytes into the resource slice. -/
theorem C7_witness :
    read_resource ⟨0, 0, 0, true, true⟩
        ([128, 0] ++ List.replicate 20 0 ++ [88, 88, 88, 88] ++
          List.replicate 14 0 ++ [99, 100]) =
      .ok ⟨⟨0, 0, 0, true, true⟩,
        some ⟨128, 0, 0, 0, 0, 0, 0, 0, 0, 0, 0⟩, [99, 100]⟩ ∧
    [99, 100] = ([88, 88, 88, 88] ++ List.replicate 14 0 ++
      [99, 100] : List Nat).drop 18 ∧
    ([88, 88, 88, 88] ++ List.replicate 14 0 ++ [99, 100] : List Nat) =
      ([128, 0] ++ List.replicate 20 0 ++ [88, 88, 88, 88] ++
        List.replicate 14 0 ++ [99, 100]).drop 22 :=
  C7_fallback ⟨0, 0, 0, true, true⟩
    ([128, 0] ++ List.replicate 20 0 ++ [88, 88, 88, 88] ++
      List.replicate 14 0 ++ [99, 100])
    ⟨128, 0, 0, 0, 0, 0, 0, 0, 0, 0, 0⟩
    ([88, 88, 88, 88] ++ List.replicate 14 0 ++ [99, 100]) [99, 100]
    (by decide) (by decide) (by decide) (by decide)

/-! ### Claim C2: canonical Huffman code assignment -/

/-- Number of depths equal to `bc` in a depth list. -/
def countDepth (bc : Nat) : List Nat → Nat
  | [] => 0
  | d :: ds => (if d = bc then 1 else 0) + countDepth bc ds

/-- The spec-side pass advances the code counter by one per symbol of the
current length. -/
theorem spec_assign_pass_snd (bc : Nat) :
    ∀ (ns : List Node) (code : Nat),
      (spec_assign_pass bc ns code).2 =
        code + countDepth bc (ns.map Node.bit_depth)
  | [], code => by simp [spec_assign_pass, countDepth]
  | n :: ns, code => by
    unfold spec_assign_pass
    by_cases hd : n.bit_depth = bc
    · rw [if_pos hd]
      dsimp only [List.map_cons, countDepth]
      rw [if_pos hd, spec_assign_pass_snd bc ns (code + 1)]
      omega
    · rw [if_neg hd]
      dsimp only [List.map_cons, countDepth]
      rw [if_neg hd, spec_assign_pass_snd bc ns code]
      omega

/-- The spec-side pass rewrites codes but never the stored depths. -/
theorem spec_assign_pass_depths (bc : Nat) :
    ∀ (ns : List Node) (code : Nat),
      (spec_assign_pass bc ns code).1.map Node.bit_depth =
        ns.map Node.bit_depth
  | [], code => rfl
  | n :: ns, code => by
    unfold spec_assign_pass
    by_cases hd : n.bit_depth = bc
    · rw [if_pos hd]
      dsimp only [List.map_cons]
      rw [spec_assign_pass_depths bc ns (code + 1)]
    · rw [if_neg hd]
      dsimp only [List.map_cons]
      rw [spec_assign_pass_depths bc ns code]

/-- Splitting the Kraft weight at the current length: the depths equal to
`bc` contribute `countDepth bc ds` copies of `2 ^ (32 - bc)`. -/
theorem kraft_split (bc : Nat) (hbc : bc ≤ 16) :
    ∀ ds : List Nat,
      kraftFrom bc ds =
        countDepth bc ds * 2 ^ (32 - bc) + kraftFrom (bc + 1) ds
  | [] => by simp [kraftFrom, countDepth]
  | d :: ds => by
    unfold kraftFrom countDepth
    rw [kraft_split bc hbc ds]
    by_cases hd : d = bc
    · subst hd
      rw [if_pos rfl, if_pos ⟨Nat.le_refl d, hbc⟩, if_neg (by omega)]
      ring
    · rw [if_neg hd]
      by_cases hr : bc ≤ d ∧ d ≤ 16
      · rw [if_pos hr, if_pos ⟨by omega, hr.2⟩]
        ring
      · rw [if_neg hr, if_neg (by omega)]
        ring

/-- Equivalence of one assignment pass with the spec-side counter: starting
from `val = code * 2 ^ (32 - bc)` (reduced mod `2 ^ 32`), as long as the
final counter value cannot overflow the `u32`, the code's `val / div`
arithmetic hands each symbol of the current length exactly the spec's next
counter value, and the pass ends at the advanced counter. -/
theorem assign_pass_eq_spec (bc : Nat) :
    ∀ (ns : List Node) (code : Nat),
      (code + countDepth bc (ns.map Node.bit_depth)) * 2 ^ (32 - bc)
          ≤ 2 ^ 32 →
      assign_pass bc (2 ^ (32 - bc)) ns ((code * 2 ^ (32 - bc)) % 2 ^ 32) =
        ((spec_assign_pass bc ns code).1,
         ((code + countDepth bc (ns.map Node.bit_depth)) * 2 ^ (32 - bc))
           % 2 ^ 32)
  | [], code, hle => by
    simp [assign_pass, spec_assign_pass, countDepth]
  | n :: ns, code, hle => by
    have hD : 0 < 2 ^ (32 - bc) := Nat.pos_pow_of_pos _ (by omega)
    unfold assign_pass spec_assign_pass
    by_cases hd : n.bit_depth = bc
    · rw [if_pos hd, if_pos hd]
      have hcnt : countDepth bc ((n :: ns).map Node.bit_depth) =
          1 + countDepth bc (ns.map Node.bit_depth) := by
        dsimp only [List.map_cons, countDepth]
        rw [if_pos hd]
      rw [hcnt] at hle
      have hlt : code * 2 ^ (32 - bc) < 2 ^ 32 := by
        have h1 : (code + 1) * 2 ^ (32 - bc) ≤
            (code + (1 + countDepth bc (ns.map Node.bit_depth)))
              * 2 ^ (32 - bc) :=
          Nat.mul_le_mul_right _ (by omega)
        have h2 : (code + 1) * 2 ^ (32 - bc) =
            code * 2 ^ (32 - bc) + 2 ^ (32 - bc) := by ring
        omega
      have key : (code * 2 ^ (32 - bc)) % 2 ^ 32 = code * 2 ^ (32 - bc) :=
        Nat.mod_eq_of_lt hlt
      have hdiv : (code * 2 ^ (32 - bc)) % 2 ^ 32 / 2 ^ (32 - bc) = code := by
        rw [key]
        exact Nat.mul_div_cancel code hD
      have harg : ((code * 2 ^ (32 - bc)) % 2 ^ 32 + 2 ^ (32 - bc)) % 2 ^ 32 =
          ((code + 1) * 2 ^ (32 - bc)) % 2 ^ 32 := by
        rw [key]
        congr 1
        ring
      rw [hdiv, harg,
        assign_pass_eq_spec bc ns (code + 1) (by
          have he : code + 1 + countDepth bc (ns.map Node.bit_depth) =
              code + (1 + countDepth bc (ns.map Node.bit_depth)) := by omega
          rw [he]
          exact hle)]
      rw [hcnt]
      have he2 : code + 1 + countDepth bc (ns.map Node.bit_depth) =
          code + (1 + countDepth bc (ns.map Node.bit_depth)) := by omega
      rw [he2]
    · rw [if_neg hd, if_neg hd]
      have hcnt : countDepth bc ((n :: ns).map Node.bit_depth) =
          countDepth bc (ns.map Node.bit_depth) := by
        dsimp only [List.map_cons, countDepth]
        rw [if_neg hd]
        omega
      rw [hcnt] at hle
      rw [assign_pass_eq_spec bc ns code hle, hcnt]

/-- Equivalence of the full assignment loop with the spec-side counter:
under the Kraft bound, the code's halving divisor and wrapping `val` track
the spec's counter (which doubles between lengths) pass for pass. -/
theorem assign_loop_eq_spec :
    ∀ (k bc code : Nat) (ns : List Node),
      1 ≤ bc → bc + k ≤ 17 →
      code * 2 ^ (32 - bc) + kraftFrom bc (ns.map Node.bit_depth)
          ≤ 2 ^ 32 →
      assign_loop k bc (2 ^ (32 - bc)) ((code * 2 ^ (32 - bc)) % 2 ^ 32) ns =
        spec_assign_loop k bc code ns
  | 0, bc, code, ns, h1, h2, h3 => rfl
  | k + 1, bc, code, ns, h1, h2, h3 => by
    have hbc16 : bc ≤ 16 := by omega
    have hD : 0 < 2 ^ (32 - bc) := Nat.pos_pow_of_pos _ (by omega)
    have hsplit := kraft_split bc hbc16 (ns.map Node.bit_depth)
    have hpass : (code + countDepth bc (ns.map Node.bit_depth))
        * 2 ^ (32 - bc) ≤ 2 ^ 32 := by
      have hmul : (code + countDepth bc (ns.map Node.bit_depth))
          * 2 ^ (32 - bc) =
          code * 2 ^ (32 - bc) +
            countDepth bc (ns.map Node.bit_depth) * 2 ^ (32 - bc) := by
        ring
      omega
    unfold assign_loop spec_assign_loop
    rw [assign_pass_eq_spec bc ns code hpass]
    dsimp only
    have hDhalf : 2 ^ (32 - bc) >>> 1 = 2 ^ (32 - (bc + 1)) := by
      rw [Nat.shiftRight_eq_div_pow]
      have hsucc : 32 - bc = (32 - (bc + 1)) + 1 := by omega
      rw [hsucc, Nat.pow_succ]
      simp [Nat.mul_div_cancel]
    have hval : ((code + countDepth bc (ns.map Node.bit_depth))
        * 2 ^ (32 - bc)) % 2 ^ 32 =
        (((code + countDepth bc (ns.map Node.bit_depth)) * 2)
          * 2 ^ (32 - (bc + 1))) % 2 ^ 32 := by
      congr 1
      have hsucc : 32 - bc = (32 - (bc + 1)) + 1 := by omega
      rw [hsucc, Nat.pow_succ]
      ring
    rw [hDhalf, hval, spec_assign_pass_snd bc ns code]
    apply assign_loop_eq_spec k (bc + 1)
    · omega
    · omega
    · rw [spec_assign_pass_depths bc ns code]
      have hback : ((code + countDepth bc (ns.map Node.bit_depth)) * 2)
          * 2 ^ (32 - (bc + 1)) =
          code * 2 ^ (32 - bc) +
            countDepth bc (ns.map Node.bit_depth) * 2 ^ (32 - bc) := by
        have hsucc : 32 - bc = (32 - (bc + 1)) + 1 := by omega
        rw [hsucc, Nat.pow_succ]
        ring
      omega

/-- The code's full canonical assignment agrees with the specification's
canonical counter whenever the depth list satisfies the Kraft bound (the
total weight fits the 32-bit accumulator, as every prefix-decodable depth
list does). -/
theorem assign_codes_eq_spec (ns : List Node)
    (hk : kraftFrom 1 (ns.map Node.bit_depth) ≤ 2 ^ 32) :
    assign_codes ns = spec_canonical_assign ns := by
  have h := assign_loop_eq_spec 16 1 0 ns (by omega) (by omega)
    (by simpa using hk)
  simpa using h

/-- Claim C2: when the leaf count is nonzero and the depths read from the
stream satisfy the Kraft bound, `read_table` stores, for the first
`leaf_nodes` slots, exactly the canonical codes of the specification's
counter (lengths 1..16 in order, symbols in ascending index order, counter
increasing from 0 and doubling between lengths), each stored value being the
bit-reversal of its canonical code at width equal to the symbol's code
length — `spec_assign_pass` stores `inverse_bits code bc` (first conjunct).
For bit-depths `[2,1,3,3]` the assignment yields pre-reversal codes
`2, 0, 6, 7` (second conjunct), which are prefix-free (third conjunct) and
numerically ordered shorter-before-longer (fourth conjunct). -/
theorem C2_read_table_canonical (bq : BitQueue) (s : List Nat)
    (table : Table)
    (hln : 1 ≤ min (bq.read_bits s 5).1 16)
    (hk : kraftFrom 1 (((read_depths (bq.read_bits s 5).2.1
        (bq.read_bits s 5).2.2
        (List.take (min (bq.read_bits s 5).1 16) table)).1).map
          Node.bit_depth) ≤ 2 ^ 32) :
    (read_table bq s table).1 =
      spec_canonical_assign
        (read_depths (bq.read_bits s 5).2.1 (bq.read_bits s 5).2.2
          (List.take (min (bq.read_bits s 5).1 16) table)).1
        ++ List.drop (min (bq.read_bits s 5).1 16) table ∧
    spec_canonical_assign
        [⟨0, 2⟩, ⟨0, 1⟩, ⟨0, 3⟩, ⟨0, 3⟩] =
      [⟨inverse_bits 2 2, 2⟩, ⟨inverse_bits 0 1, 1⟩,
       ⟨inverse_bits 6 3, 3⟩, ⟨inverse_bits 7 3, 3⟩] ∧
    (∀ p ∈ [((2 : Nat), (2 : Nat)), (0, 1), (6, 3), (7, 3)],
      ∀ q ∈ [((2 : Nat), (2 : Nat)), (0, 1), (6, 3), (7, 3)],
        p ≠ q → ¬ codePrefixOf p.1 p.2 q.1 q.2) ∧
    (∀ p ∈ [((2 : Nat), (2 : Nat)), (0, 1), (6, 3), (7, 3)],
      ∀ q ∈ [((2 : Nat), (2 : Nat)), (0, 1), (6, 3), (7, 3)],
        p.2 < q.2 → p.1 < q.1) := by
  refine ⟨?_, by decide, by decide, by decide⟩
  unfold read_table
  rw [if_neg (by omega)]
  dsimp only
  rw [assign_codes_eq_spec _ hk]

/-- Witness for C2: the stream `[68, 98, 6]` encodes a leaf count of 4 and
bit-depths `[2, 1, 3, 3]` (Kraft-complete); the resulting table stores the
reversed canonical codes `1, 0, 3, 7` at depths `2, 1, 3, 3`. -/
theorem C2_witness :
    (read_table ⟨0, 0⟩ [68, 98, 6] table_new).1 =
      [(⟨1, 2⟩ : Node), ⟨0, 1⟩, ⟨3, 3⟩, ⟨7, 3⟩] ++
        List.replicate 12 ⟨0, 0⟩ := by
  have h := (C2_read_table_canonical ⟨0, 0⟩ [68, 98, 6] table_new
    (by decide) (by decide)).1
  exact h.trans (by decide)
